import Mathlib

/-!
Shallow embedding of the two maintenance scripts of this repository:
`tmp/generate_manual_routes.py` (route manifest generator) and
`tmp/rename_indexes.py` (index file renamer).

Files discovered by `os.walk` under the generator's root directory are
modelled as pairs `(d, f)` where `d : List String` is the list of directory
segments of the file's directory relative to the root (empty for the root
itself) and `f : String` is the filename.  Path strings joined and split on
`"/"` correspond to these segment lists.  File contents handled by the
renamer are modelled as `List Char`.
-/

/-!
### Python string comparison

`routes.sort()` in the generator sorts the fully formatted lines by Python's
string ordering: code-point lexicographic comparison.  `lexLe` embeds that
comparison on the underlying character lists, and `strLe` lifts it to
`String`.
-/

/-- Code-point lexicographic `≤` on character lists, as Python compares
strings. -/
def lexLe : List Char → List Char → Bool
  | [], _ => true
  | _ :: _, [] => false
  | a :: as, b :: bs =>
      if a < b then true else if b < a then false else lexLe as bs

/-- Python's `≤` on strings: lexicographic comparison of the code points. -/
def strLe (a b : String) : Prop := lexLe a.data b.data = true

instance (a b : String) : Decidable (strLe a b) :=
  inferInstanceAs (Decidable (lexLe a.data b.data = true))

theorem lexLe_cons_iff (a b : Char) (as bs : List Char) :
    lexLe (a :: as) (b :: bs) = true ↔ a < b ∨ (a = b ∧ lexLe as bs = true) := by
  by_cases hab : a < b
  · simp [lexLe, hab]
  · by_cases hba : b < a
    · have hne : a ≠ b := fun h => absurd (h ▸ hba) (lt_irrefl a)
      simp [lexLe, hab, hba, hne]
    · have heq : a = b := le_antisymm (not_lt.mp hba) (not_lt.mp hab)
      simp [lexLe, hab, hba, heq]

theorem lexLe_total (x : List Char) : ∀ y : List Char,
    lexLe x y = true ∨ lexLe y x = true := by
  induction x with
  | nil => intro y; left; rfl
  | cons a as ih =>
      intro y
      cases y with
      | nil => right; rfl
      | cons b bs =>
          rcases lt_trichotomy a b with h | h | h
          · left; exact (lexLe_cons_iff a b as bs).mpr (Or.inl h)
          · rcases ih bs with h2 | h2
            · left; exact (lexLe_cons_iff a b as bs).mpr (Or.inr ⟨h, h2⟩)
            · right; exact (lexLe_cons_iff b a bs as).mpr (Or.inr ⟨h.symm, h2⟩)
          · right; exact (lexLe_cons_iff b a bs as).mpr (Or.inl h)

theorem lexLe_trans (x : List Char) : ∀ y z : List Char,
    lexLe x y = true → lexLe y z = true → lexLe x z = true := by
  induction x with
  | nil => intro y z _ _; rfl
  | cons a as ih =>
      intro y z h1 h2
      cases y with
      | nil => cases h1
      | cons b bs =>
          cases z with
          | nil => cases h2
          | cons c cs =>
              rcases (lexLe_cons_iff a b as bs).mp h1 with hab | ⟨hab, hr1⟩
              · rcases (lexLe_cons_iff b c bs cs).mp h2 with hbc | ⟨hbc, _⟩
                · exact (lexLe_cons_iff a c as cs).mpr (Or.inl (lt_trans hab hbc))
                · exact (lexLe_cons_iff a c as cs).mpr (Or.inl (hbc ▸ hab))
              · rcases (lexLe_cons_iff b c bs cs).mp h2 with hbc | ⟨hbc, hr2⟩
                · exact (lexLe_cons_iff a c as cs).mpr (Or.inl (hab ▸ hbc))
                · exact (lexLe_cons_iff a c as cs).mpr
                    (Or.inr ⟨hab.trans hbc, ih bs cs hr1 hr2⟩)

theorem lexLe_antisymm (x : List Char) : ∀ y : List Char,
    lexLe x y = true → lexLe y x = true → x = y := by
  induction x with
  | nil =>
      intro y _ h2
      cases y with
      | nil => rfl
      | cons b bs => cases h2
  | cons a as ih =>
      intro y h1 h2
      cases y with
      | nil => cases h1
      | cons b bs =>
          rcases (lexLe_cons_iff a b as bs).mp h1 with hab | ⟨hab, hr1⟩
          · rcases (lexLe_cons_iff b a bs as).mp h2 with hba | ⟨hba, _⟩
            · exact absurd hba (lt_asymm hab)
            · exact absurd (hba ▸ hab) (lt_irrefl a)
          · rcases (lexLe_cons_iff b a bs as).mp h2 with hba | ⟨_, hr2⟩
            · exact absurd (hab ▸ hba) (lt_irrefl b)
            · exact hab ▸ congrArg (List.cons a) (ih bs hr1 hr2)

instance : IsTotal String strLe :=
  ⟨fun a b => lexLe_total a.data b.data⟩

instance : IsTrans String strLe :=
  ⟨fun a b c h1 h2 => lexLe_trans a.data b.data c.data h1 h2⟩

instance : IsAntisymm String strLe :=
  ⟨fun a b h1 h2 => String.ext (lexLe_antisymm a.data b.data h1 h2)⟩

instance : IsRefl String strLe :=
  ⟨fun a => (lexLe_total a.data a.data).elim id id⟩

/-!
### Python string primitives

Python strings are sequences of code points; the operations the scripts use
(`endswith`, `startswith`, slicing, `join`) are embedded on the underlying
character lists.
-/

/-- Python `s.endswith(t)`. -/
def pyEndsWith (s t : String) : Bool := t.data.isSuffixOf s.data

/-- Python `s.startswith(t)`. -/
def pyStartsWith (s t : String) : Bool := t.data.isPrefixOf s.data

/-- Python `s[n:]`. -/
def pyDrop (s : String) (n : Nat) : String := ⟨s.data.drop n⟩

/-- Python `s[:-n]` (for `0 < n ≤ len(s)`): all but the last `n`
characters. -/
def pyDropRight (s : String) (n : Nat) : String :=
  ⟨s.data.take (s.data.length - n)⟩

/-- Python `sep.join(l)`. -/
def joinSep (sep : String) : List String → String
  | [] => ""
  | [a] => a
  | a :: b :: rest => a ++ sep ++ joinSep sep (b :: rest)

/-!
### Route manifest generator (`tmp/generate_manual_routes.py`)
-/

/-- The index-like filename test of the generator
(`filename == "_index.tsx" or filename == "index.tsx" or
filename == "route.tsx"`). -/
def indexLike (filename : String) : Bool :=
  filename == "_index.tsx" || filename == "index.tsx" || filename == "route.tsx"

/-- The segments of `path_rel = os.path.relpath(full_path, base_dir)` split
on `"/"`: the directory segments relative to the root followed by the
filename. -/
def pathSegments (d : List String) (f : String) : List String := d ++ [f]

/-- `rel_path = os.path.relpath(full_path, "app")` with
`base_dir = "app/routes"`: the file's path relative to the parent of the
root directory. -/
def relPath (d : List String) (f : String) : String :=
  joinSep "/" ("routes" :: pathSegments d f)

/-- The generator's segment preprocessing: drop an index-like final segment
(`_index.tsx`, `index.tsx`, `route.tsx`); otherwise strip the trailing
`.tsx` (`filename[:-4]`) from the final segment. -/
def routeSegments (segs : List String) : List String :=
  match segs.getLast? with
  | none => segs
  | some filename =>
      if indexLike filename then segs.dropLast
      else if pyEndsWith filename ".tsx" then segs.dropLast ++ [pyDropRight filename 4]
      else segs

/-- The generator's per-segment URL rewriting: a segment starting with the
sigil `$` becomes `":" + seg[1:]`; every other segment passes through. -/
def sigilSeg (seg : String) : String :=
  if pyStartsWith seg "$" then ":" ++ pyDrop seg 1 else seg

/-- `url_path = "/".join(url_segments)`. -/
def urlPath (segs : List String) : String :=
  joinSep "/" (segs.map sigilSeg)

/-- The registration line the generator appends for one qualifying file:
the `index(...)` form when the URL path is empty, the `route(...)` form
otherwise. -/
def routeLine (d : List String) (f : String) : String :=
  if urlPath (routeSegments (pathSegments d f)) = "" then
    "    index(\"" ++ relPath d f ++ "\"),"
  else
    "    route(\"" ++ urlPath (routeSegments (pathSegments d f)) ++ "\", \""
      ++ relPath d f ++ "\"),"

/-- The generator's route list: one line per file whose name ends in
`.tsx`, sorted by Python's string ordering (`routes.sort()`; a stable
sort by `strLe`). -/
def generateRoutes (files : List (List String × String)) : List String :=
  List.insertionSort strLe
    ((files.filter (fun p => pyEndsWith p.2 ".tsx")).map (fun p => routeLine p.1 p.2))

/-- The static text preceding the route lines in the output file. -/
def outputHeader : String :=
  "import \x7b type RouteConfig, index, route \x7d from \"@react-router/dev/routes\";\n\nexport default [\n"

/-- The static text following the route lines in the output file. -/
def outputFooter : String :=
  "\n] satisfies RouteConfig;\n"

/-- The full text written to `app/routes.ts`: header, the sorted lines
joined by newlines, footer. -/
def generatedContent (files : List (List String × String)) : String :=
  outputHeader ++ joinSep "\n" (generateRoutes files) ++ outputFooter

/-!
### Index file renamer (`tmp/rename_indexes.py`)
-/

/-- Bool test: does `pat` occur in the list as a contiguous substring? -/
def containsSub (pat : List Char) : List Char → Bool
  | [] => pat.isEmpty
  | c :: s => pat.isPrefixOf (c :: s) || containsSub pat s

/-- Python `content.replace(pat, rep)` for a nonempty `pat`: scan left to
right, replacing each non-overlapping occurrence of `pat` with `rep`. -/
def replaceAll (pat rep : List Char) : List Char → List Char
  | [] => []
  | c :: s =>
      if h : pat ≠ [] ∧ pat.isPrefixOf (c :: s) then
        rep ++ replaceAll pat rep ((c :: s).drop pat.length)
      else
        c :: replaceAll pat rep s
termination_by s => s.length
decreasing_by
  · simp only [List.length_drop, List.length_cons]
    have hp : 0 < pat.length := List.length_pos.mpr h.1
    omega
  · simp

/-- The old import reference substring `from "./+types/_index"`. -/
def oldImport : List Char := "from \"./+types/_index\"".data

/-- The replacement import reference `from "./+types/index"`. -/
def newImport : List Char := "from \"./+types/index\"".data

/-- `content.replace('from "./+types/_index"', 'from "./+types/index"')`. -/
def updateContent (content : List Char) : List Char :=
  replaceAll oldImport newImport content

/-- The conditional write-back (`if content != new_content: f.write(...)`):
`some` of the written content when a write happens, `none` otherwise. -/
def writeBack (content : List Char) : Option (List Char) :=
  if content ≠ updateContent content then some (updateContent content) else none

/-- A file in the renamer's filesystem model: directory segments, filename,
content. -/
structure FRec where
  dir : List String
  name : String
  content : List Char

deriving instance DecidableEq for FRec

/-- `find_files`: collect every file whose name is exactly `_index.tsx`. -/
def find_files (t : List FRec) : List FRec :=
  t.filter (fun f => f.name == "_index.tsx")

/-- Create or overwrite the file at `(d, n)` with content `c`
(`shutil.move` silently overwrites an existing destination file). -/
def setFile (t : List FRec) (d : List String) (n : String) (c : List Char) :
    List FRec :=
  if t.any (fun g => g.dir == d && g.name == n) then
    t.map (fun g => if g.dir == d && g.name == n then ⟨d, n, c⟩ else g)
  else
    t ++ [⟨d, n, c⟩]

/-- Remove the file at `(d, n)`. -/
def removeFile (t : List FRec) (d : List String) (n : String) : List FRec :=
  t.filter (fun g => !(g.dir == d && g.name == n))

/-- One iteration of the renamer's loop on match `f`:
`shutil.move(src, dst)` followed by the content update of `dst`
(the conditional write leaves `dst` holding `updateContent f.content`
either way). -/
def moveStep (t : List FRec) (f : FRec) : List FRec :=
  setFile (removeFile t f.dir f.name) f.dir "index.tsx" (updateContent f.content)

/-- A full renamer run: `find_files` first, then the loop over the
matches. -/
def runRenamer (t : List FRec) : List FRec :=
  (find_files t).foldl moveStep t

/-- The filesystem effects a renamer run performs. -/
inductive RAction where
  | renameF (src dst : List String) : RAction
  | writeF (path : List String) : RAction

deriving instance DecidableEq for RAction

/-- The effects of one loop iteration: the rename, then the content
write-back when the replacement changed the content. -/
def fileActions (f : FRec) : List RAction :=
  RAction.renameF (f.dir ++ [f.name]) (f.dir ++ ["index.tsx"]) ::
    (if f.content ≠ updateContent f.content then
      [RAction.writeF (f.dir ++ ["index.tsx"])]
    else [])

/-- All effects of a renamer run, in order. -/
def runActions (t : List FRec) : List RAction :=
  (find_files t).flatMap fileActions

/-!
### Generator run as an event trace (for the partial-output property)
-/

/-- Observable events of a generator run: visiting one file during the
walk, and the single write of the output file. -/
inductive GenEvent where
  | visit (dir : List String) (file : String) : GenEvent
  | writeOutput (content : String) : GenEvent

deriving instance DecidableEq for GenEvent

/-- The trace of a complete generator run: every walk visit, then exactly
one write of the final content (the script touches the output file only in
the final `with open(output_file, "w")` block). -/
def generatorTrace (files : List (List String × String)) : List GenEvent :=
  files.map (fun p => GenEvent.visit p.1 p.2) ++
    [GenEvent.writeOutput (generatedContent files)]

/-- The output file's content after a (possibly truncated) event trace,
starting from content `cur`. -/
def outputAfter : List GenEvent → String → String
  | [], cur => cur
  | GenEvent.visit _ _ :: es, cur => outputAfter es cur
  | GenEvent.writeOutput c :: es, _ => outputAfter es c

example : urlPath (routeSegments (pathSegments ["a"] "$id.tsx")) = "a/:id" := by decide

example : runRenamer [⟨["a"], "index.tsx", ['x']⟩, ⟨["a"], "_index.tsx", []⟩] =
    [⟨["a"], "index.tsx", []⟩] := by
  simp [runRenamer, find_files, moveStep, removeFile, setFile, updateContent, replaceAll]

example : containsSub oldImport [] = false := by decide

example : routeLine [] "_index.tsx" = "    index(\"routes/_index.tsx\"),"  := by decide

example : generateRoutes [([], "b.tsx"), ([], "a.tsx")] =
    ["    route(\"a\", \"routes/a.tsx\"),", "    route(\"b\", \"routes/b.tsx\"),"] := by decide

/-!
### Supporting lemmas
-/

theorem outputAfter_append (l1 l2 : List GenEvent) (init : String) :
    outputAfter (l1 ++ l2) init = outputAfter l2 (outputAfter l1 init) := by
  induction l1 generalizing init with
  | nil => rfl
  | cons e l ih => cases e <;> simp [outputAfter, ih]

theorem outputAfter_visits (l : List (List String × String)) (init : String) :
    outputAfter (l.map (fun p => GenEvent.visit p.1 p.2)) init = init := by
  induction l with
  | nil => rfl
  | cons p l ih => simpa [outputAfter] using ih

/-!
### Claims about the route manifest generator
-/

/-- C1: for every input tree, every file whose name ends in `.tsx`
contributes exactly one registration line to the generator's output: the
output is a permutation of the list holding one line per qualifying file,
so it has the same length and the same multiplicities. -/
theorem generator_one_line_per_file (files : List (List String × String)) :
    (generateRoutes files).Perm
      ((files.filter (fun p => pyEndsWith p.2 ".tsx")).map
        (fun p => routeLine p.1 p.2)) ∧
    (generateRoutes files).length =
      (files.filter (fun p => pyEndsWith p.2 ".tsx")).length :=
  ⟨List.perm_insertionSort strLe _,
    (List.perm_insertionSort strLe _).length_eq.trans (List.length_map _ _)⟩

/-- C2: a qualifying file whose final segment is one of the three
index-like names (`_index.tsx`, `index.tsx`, `route.tsx`) drops the final
segment, so at directory `a/b/` it yields the URL path `a/b`; any other
qualifying file keeps the final segment with the `.tsx` suffix
stripped. -/
theorem index_like_route_path (d : List String) (f : String)
    (hf : pyEndsWith f ".tsx" = true) :
    (indexLike f = true → routeSegments (pathSegments d f) = d) ∧
    (indexLike f = false →
      routeSegments (pathSegments d f) = d ++ [pyDropRight f 4]) ∧
    (indexLike f = true →
      urlPath (routeSegments (pathSegments ["a", "b"] f)) = "a/b") := by
  refine ⟨fun hi => ?_, fun hi => ?_, fun hi => ?_⟩
  · simp [routeSegments, pathSegments, List.getLast?_concat, List.dropLast_concat, hi]
  · simp [routeSegments, pathSegments, List.getLast?_concat, List.dropLast_concat, hi, hf]
  · have hseg : routeSegments (pathSegments ["a", "b"] f) = ["a", "b"] := by
      simp [routeSegments, pathSegments, List.getLast?_concat, List.dropLast_concat, hi]
    rw [hseg]; decide

/-- C2 witness: the index-like file `_index.tsx` under `a/b/` yields the
URL path `a/b`. -/
theorem index_like_route_path_witness :
    pyEndsWith "_index.tsx" ".tsx" = true ∧
    urlPath (routeSegments (pathSegments ["a", "b"] "_index.tsx")) = "a/b" :=
  ⟨by decide,
    (index_like_route_path ["a", "b"] "_index.tsx" (by decide)).2.2 (by decide)⟩

/-- C3: a segment beginning with the sigil `$` is rewritten to a named URL
parameter (`:` prefix, sigil removed); every other segment passes through
unchanged; in particular the file `$id.tsx` under `a/` produces the URL
path `a/:id`, whose final segment is `:id`. -/
theorem sigil_segment_param (seg : String) :
    sigilSeg seg =
      (if pyStartsWith seg "$" then ":" ++ pyDrop seg 1 else seg) ∧
    urlPath (routeSegments (pathSegments ["a"] "$id.tsx")) = "a/:id" :=
  ⟨rfl, by decide⟩

/-- C4: each qualifying file gets exactly one registration line in the
output: the `index(...)` form when the derived URL path is empty, and the
`route(url, importPath)` form otherwise, with the import path relative to
the parent of the root directory and the extension preserved; an
index-like file at the tree root yields the `index` form. -/
theorem registration_line_emission (files : List (List String × String))
    (d : List String) (f : String) (hmem : (d, f) ∈ files)
    (hf : pyEndsWith f ".tsx" = true) :
    routeLine d f ∈ generateRoutes files ∧
    routeLine d f =
      (if urlPath (routeSegments (pathSegments d f)) = "" then
        "    index(\"" ++ relPath d f ++ "\"),"
      else
        "    route(\"" ++ urlPath (routeSegments (pathSegments d f)) ++ "\", \""
          ++ relPath d f ++ "\"),") ∧
    relPath d f = joinSep "/" ("routes" :: (d ++ [f])) ∧
    routeLine [] "_index.tsx" = "    index(\"routes/_index.tsx\")," := by
  refine ⟨?_, rfl, rfl, by decide⟩
  have hm : routeLine d f ∈
      (files.filter (fun p => pyEndsWith p.2 ".tsx")).map
        (fun p => routeLine p.1 p.2) :=
    List.mem_map_of_mem _ (List.mem_filter.mpr ⟨hmem, hf⟩)
  exact ((List.perm_insertionSort strLe _).mem_iff).mpr hm

/-- C4 witness: the root index-like file appears in the output with the
`index` form. -/
theorem registration_line_emission_witness :
    (([], "_index.tsx") ∈ ([([], "_index.tsx")] : List (List String × String))) ∧
    pyEndsWith "_index.tsx" ".tsx" = true ∧
    routeLine [] "_index.tsx" ∈ generateRoutes [([], "_index.tsx")] :=
  ⟨by decide, by decide,
    (registration_line_emission [([], "_index.tsx")] [] "_index.tsx"
      (by decide) (by decide)).1⟩

/-- C5: adjacent lines of the generator's output are ordered by plain
code-point string comparison of the fully formatted lines. -/
theorem output_lines_sorted (files : List (List String × String)) (i : Nat)
    (h : i + 1 < (generateRoutes files).length) :
    strLe ((generateRoutes files).get ⟨i, Nat.lt_of_succ_lt h⟩)
      ((generateRoutes files).get ⟨i + 1, h⟩) := by
  have hs : List.Sorted strLe (generateRoutes files) :=
    List.sorted_insertionSort strLe _
  exact hs.rel_get_of_lt (Fin.mk_lt_mk.mpr (Nat.lt_succ_self i))

/-- C5 witness: the two lines generated for `b.tsx` and `a.tsx` come out
in string order. -/
theorem output_lines_sorted_witness :
    1 + 1 ≤ (generateRoutes [([], "b.tsx"), ([], "a.tsx")]).length ∧
    strLe ((generateRoutes [([], "b.tsx"), ([], "a.tsx")]).get ⟨0, by decide⟩)
      ((generateRoutes [([], "b.tsx"), ([], "a.tsx")]).get ⟨1, by decide⟩) :=
  ⟨by decide, output_lines_sorted [([], "b.tsx"), ([], "a.tsx")] 0 (by decide)⟩

/-- C7: the output file is touched only after the whole walk has
completed: any trace truncated within the walk leaves the output file's
prior content unchanged, and the complete trace leaves exactly the
generated content. -/
theorem no_partial_output (files : List (List String × String))
    (init : String) (k : Nat) (hk : k ≤ files.length) :
    outputAfter ((generatorTrace files).take k) init = init ∧
    outputAfter (generatorTrace files) init = generatedContent files := by
  constructor
  · rw [generatorTrace,
      List.take_append_of_le_length (by simpa using hk), ← List.map_take]
    exact outputAfter_visits _ _
  · rw [generatorTrace, outputAfter_append, outputAfter_visits]
    rfl

/-- C7 witness: truncating the one-file run before the write leaves the
prior output content `"x"` in place. -/
theorem no_partial_output_witness :
    1 ≤ ([(([] : List String), "a.tsx")] : List (List String × String)).length ∧
    outputAfter ((generatorTrace [([], "a.tsx")]).take 1) "x" = "x" :=
  ⟨by decide, (no_partial_output [([], "a.tsx")] "x" 1 (by decide)).1⟩

/-- C9: the generator's output text does not depend on the order in which
the walk enumerates the files: permuted inputs produce identical output
content. -/
theorem generator_deterministic (files1 files2 : List (List String × String))
    (h : files1.Perm files2) :
    generatedContent files1 = generatedContent files2 := by
  have hlines :
      ((files1.filter (fun p => pyEndsWith p.2 ".tsx")).map
        (fun p => routeLine p.1 p.2)).Perm
      ((files2.filter (fun p => pyEndsWith p.2 ".tsx")).map
        (fun p => routeLine p.1 p.2)) :=
    (h.filter _).map _
  have hgen : generateRoutes files1 = generateRoutes files2 :=
    List.eq_of_perm_of_sorted
      ((List.perm_insertionSort strLe _).trans
        (hlines.trans (List.perm_insertionSort strLe _).symm))
      (List.sorted_insertionSort strLe _) (List.sorted_insertionSort strLe _)
  simp [generatedContent, hgen]

/-!
### Supporting lemmas about the renamer
-/

theorem replaceAll_nil (pat rep : List Char) : replaceAll pat rep [] = [] := by
  simp [replaceAll]

theorem replaceAll_cons_pos (pat rep : List Char) (c : Char) (s : List Char)
    (hpat : pat ≠ []) (hp : pat.isPrefixOf (c :: s) = true) :
    replaceAll pat rep (c :: s) =
      rep ++ replaceAll pat rep ((c :: s).drop pat.length) := by
  rw [replaceAll]
  simp [hpat, hp]

theorem replaceAll_cons_neg (pat rep : List Char) (c : Char) (s : List Char)
    (hp : pat.isPrefixOf (c :: s) = false) :
    replaceAll pat rep (c :: s) = c :: replaceAll pat rep s := by
  rw [replaceAll]
  simp [hp]

theorem replaceAll_of_not_contains (pat rep : List Char) (s : List Char)
    (h : containsSub pat s = false) :
    replaceAll pat rep s = s := by
  induction s with
  | nil => exact replaceAll_nil pat rep
  | cons c s ih =>
      have h2 : pat.isPrefixOf (c :: s) = false ∧ containsSub pat s = false := by
        simpa [containsSub] using h
      rw [replaceAll_cons_neg pat rep c s h2.1, ih h2.2]

theorem replaceAll_first (pat rep : List Char) (hpat : pat ≠ []) :
    ∀ a b : List Char,
      (∀ i, i < a.length → pat.isPrefixOf ((a ++ pat ++ b).drop i) = false) →
      replaceAll pat rep (a ++ pat ++ b) = a ++ rep ++ replaceAll pat rep b := by
  intro a
  induction a with
  | nil =>
      intro b _
      obtain ⟨p, ps, rfl⟩ := List.exists_cons_of_ne_nil hpat
      have hpre : (p :: ps).isPrefixOf (p :: (ps ++ b)) = true :=
        List.isPrefixOf_iff_prefix.mpr (List.prefix_append (p :: ps) b)
      have hdrop : (p :: (ps ++ b)).drop (p :: ps).length = b :=
        List.drop_left (p :: ps) b
      simp only [List.nil_append, List.cons_append]
      rw [replaceAll_cons_pos (p :: ps) rep p (ps ++ b) hpat hpre, hdrop]
  | cons c a ih =>
      intro b hfirst
      have h0 : pat.isPrefixOf (c :: (a ++ pat ++ b)) = false := by
        have h := hfirst 0 (Nat.succ_pos _)
        simpa using h
      have hrest : ∀ i, i < a.length →
          pat.isPrefixOf ((a ++ pat ++ b).drop i) = false := by
        intro i hi
        have h := hfirst (i + 1) (Nat.succ_lt_succ hi)
        simpa using h
      show replaceAll pat rep (c :: (a ++ pat ++ b)) = _
      rw [replaceAll_cons_neg pat rep c (a ++ pat ++ b) h0, ih b hrest]
      rfl

theorem find_files_names (t : List FRec) :
    ∀ f ∈ find_files t, f.name = "_index.tsx" := by
  intro f hf
  have h := List.mem_filter.mp hf
  simpa using h.2

theorem find_files_setFile (t : List FRec) (d : List String) (c : List Char) :
    find_files (setFile t d "index.tsx" c) = find_files t := by
  have hb1 : (("index.tsx" : String) == "_index.tsx") = false := by decide
  rw [setFile]
  split
  · next hany =>
      clear hany
      rw [find_files, find_files]
      induction t with
      | nil => rfl
      | cons g t ih =>
          rw [List.map_cons]
          by_cases hc : (g.dir == d && g.name == "index.tsx") = true
          · have he : g.name = "index.tsx" :=
              beq_iff_eq.mp ((Bool.and_eq_true _ _).mp hc).2
            have h2 : (g.name == "_index.tsx") = false := by rw [he]; decide
            rw [if_pos hc, List.filter_cons, List.filter_cons, ih]
            simp [hb1, h2]
          · rw [if_neg hc, List.filter_cons, List.filter_cons, ih]
  · rw [find_files, find_files, List.filter_append]
    simp [List.filter_cons, hb1]

theorem find_files_removeFile (t : List FRec) (d : List String) :
    find_files (removeFile t d "_index.tsx") =
      (find_files t).filter (fun g => !(g.dir == d)) := by
  rw [find_files, find_files, removeFile, List.filter_filter, List.filter_filter]
  refine List.filter_congr (fun g _ => ?_)
  by_cases h1 : (g.name == "_index.tsx") = true <;>
    by_cases h2 : (g.dir == d) = true <;> simp [h1, h2]

theorem find_files_moveStep (s : List FRec) (f : FRec)
    (hf : f.name = "_index.tsx") :
    find_files (moveStep s f) =
      (find_files s).filter (fun g => !(g.dir == f.dir)) := by
  rw [moveStep, hf, find_files_setFile, find_files_removeFile]

theorem find_files_foldl (l : List FRec) (hl : ∀ f ∈ l, f.name = "_index.tsx") :
    ∀ s : List FRec, find_files (l.foldl moveStep s) =
      (find_files s).filter (fun g => !(l.any (fun f => g.dir == f.dir))) := by
  induction l with
  | nil => intro s; simp
  | cons f l ih =>
      intro s
      rw [List.foldl_cons, ih (fun x hx => hl x (List.mem_cons_of_mem f hx)),
        find_files_moveStep s f (hl f (List.mem_cons_self f l)),
        List.filter_filter]
      refine List.filter_congr (fun g _ => ?_)
      cases hd : (g.dir == f.dir) <;> cases ha : l.any (fun x => g.dir == x.dir) <;>
        simp [List.any_cons, hd, ha]

theorem mem_moveStep (s : List FRec) (f g : FRec) (hf : f.name = "_index.tsx")
    (hg : g ∈ s) (hn : g.name ≠ "_index.tsx")
    (hcl : ¬(g.dir = f.dir ∧ g.name = "index.tsx")) :
    g ∈ moveStep s f := by
  have hmem : g ∈ removeFile s f.dir f.name := by
    rw [removeFile]
    refine List.mem_filter.mpr ⟨hg, ?_⟩
    have hb : (g.name == f.name) = false := by
      rw [hf]; exact beq_eq_false_iff_ne.mpr hn
    simp [hb]
  have hcond : (g.dir == f.dir && g.name == "index.tsx") = false := by
    by_cases h1 : g.dir = f.dir
    · have h2 : g.name ≠ "index.tsx" := fun h => hcl ⟨h1, h⟩
      simp [beq_eq_false_iff_ne.mpr h2]
    · simp [beq_eq_false_iff_ne.mpr h1]
  rw [moveStep, setFile]
  split
  · exact List.mem_map.mpr ⟨g, hmem, by simp [hcond]⟩
  · exact List.mem_append_left _ hmem

theorem mem_foldl_moveStep (l : List FRec) (hl : ∀ f ∈ l, f.name = "_index.tsx") :
    ∀ (s : List FRec) (g : FRec), g ∈ s → g.name ≠ "_index.tsx" →
      (∀ f ∈ l, ¬(g.dir = f.dir ∧ g.name = "index.tsx")) →
      g ∈ l.foldl moveStep s := by
  induction l with
  | nil => intro s g hg _ _; simpa using hg
  | cons f l ih =>
      intro s g hg hn hcl
      rw [List.foldl_cons]
      exact ih (fun x hx => hl x (List.mem_cons_of_mem f hx)) (moveStep s f) g
        (mem_moveStep s f g (hl f (List.mem_cons_self f l)) hg hn
          (hcl f (List.mem_cons_self f l)))
        hn (fun x hx => hcl x (List.mem_cons_of_mem f hx))

/-!
### Claims about the index file renamer
-/

/-- C6: when a renamed file's content holds the old import reference
substring (content `a ++ oldImport ++ b`, the shown occurrence being the
only one), the replacement yields `a ++ newImport ++ b` — only that
substring changes, everything else is byte-for-byte intact — and the
content is written back; when the substring is absent the content is left
unmodified and no write-back happens. -/
theorem rename_import_replacement (a b content : List Char)
    (hfirst : ∀ i, i < a.length →
      oldImport.isPrefixOf ((a ++ oldImport ++ b).drop i) = false)
    (hb : containsSub oldImport b = false)
    (hno : containsSub oldImport content = false) :
    updateContent (a ++ oldImport ++ b) = a ++ newImport ++ b ∧
    writeBack (a ++ oldImport ++ b) = some (a ++ newImport ++ b) ∧
    updateContent content = content ∧
    writeBack content = none := by
  have hpat : oldImport ≠ [] := by decide
  have hupd : updateContent (a ++ oldImport ++ b) = a ++ newImport ++ b := by
    rw [updateContent, replaceAll_first oldImport newImport hpat a b hfirst,
      replaceAll_of_not_contains oldImport newImport b hb]
  have hid : updateContent content = content :=
    replaceAll_of_not_contains oldImport newImport content hno
  have hne : a ++ oldImport ++ b ≠ a ++ newImport ++ b := by
    have h1 : oldImport.length = 22 := by decide
    have h2 : newImport.length = 21 := by decide
    intro h
    have h3 := congrArg List.length h
    simp only [List.length_append, h1, h2] at h3
    omega
  refine ⟨hupd, ?_, hid, ?_⟩
  · rw [writeBack, hupd]
    exact if_pos hne
  · rw [writeBack, hid]
    simp

/-- C6 witness: a content that is exactly the old import reference is
replaced by the new reference and written back. -/
theorem rename_import_replacement_witness :
    containsSub oldImport [] = false ∧
    updateContent ([] ++ oldImport ++ []) = [] ++ newImport ++ [] ∧
    writeBack ([] ++ oldImport ++ []) = some ([] ++ newImport ++ []) :=
  have h := rename_import_replacement [] [] []
    (fun i hi => absurd hi (Nat.not_lt_zero i)) (by decide) (by decide)
  ⟨by decide, h.1, h.2.1⟩

/-- C8: the renamer is idempotent on a second run: after one run no file
named `_index.tsx` remains, so a second run enumerates zero matches and
performs no renames and no content writes. -/
theorem renamer_idempotent (t : List FRec) :
    find_files (runRenamer t) = [] ∧ runActions (runRenamer t) = [] := by
  have h1 : find_files (runRenamer t) = [] := by
    rw [runRenamer, find_files_foldl (find_files t) (find_files_names t) t]
    rw [List.filter_eq_nil_iff]
    intro g hg
    have ha : (find_files t).any (fun f => g.dir == f.dir) = true :=
      List.any_eq_true.mpr ⟨g, hg, beq_self_eq_true g.dir⟩
    simp [ha]
  refine ⟨h1, ?_⟩
  rw [runActions, h1]
  rfl

/-- C10 counterexample: the claim fails as stated.  In the tree holding
`a/index.tsx` (content `x`) and `a/_index.tsx`, the file `a/index.tsx` is
not named `_index.tsx`, yet after the run it is gone: `shutil.move`
silently overwrites it with the renamed file. -/
theorem renamer_frame_counterexample :
    ((⟨["a"], "index.tsx", ['x']⟩ : FRec) ∈
      [(⟨["a"], "index.tsx", ['x']⟩ : FRec), ⟨["a"], "_index.tsx", []⟩]) ∧
    (⟨["a"], "index.tsx", ['x']⟩ : FRec).name ≠ "_index.tsx" ∧
    (⟨["a"], "index.tsx", ['x']⟩ : FRec) ∉
      runRenamer [⟨["a"], "index.tsx", ['x']⟩, ⟨["a"], "_index.tsx", []⟩] := by
  refine ⟨by decide, by decide, ?_⟩
  have h : runRenamer
      [(⟨["a"], "index.tsx", ['x']⟩ : FRec), ⟨["a"], "_index.tsx", []⟩] =
      [⟨["a"], "index.tsx", []⟩] := by
    simp [runRenamer, find_files, moveStep, removeFile, setFile, updateContent,
      replaceAll]
  rw [h]
  decide

/-- C10 (amended): a file that is not named `_index.tsx` and is not a
pre-existing `index.tsx` in a directory holding a matched `_index.tsx`
file survives the run unchanged (same directory, name and content). -/
theorem renamer_frame (t : List FRec) (g : FRec) (hg : g ∈ t)
    (hn : g.name ≠ "_index.tsx")
    (hcl : ∀ f ∈ find_files t, ¬(g.dir = f.dir ∧ g.name = "index.tsx")) :
    g ∈ runRenamer t :=
  mem_foldl_moveStep (find_files t) (find_files_names t) t g hg hn hcl

/-- C10 witness: a file `a.tsx` in a tree with no `_index.tsx` matches
survives the run. -/
theorem renamer_frame_witness :
    ((⟨[], "a.tsx", []⟩ : FRec) ∈ [(⟨[], "a.tsx", []⟩ : FRec)]) ∧
    (⟨[], "a.tsx", []⟩ : FRec) ∈ runRenamer [⟨[], "a.tsx", []⟩] :=
  have hff : find_files [(⟨[], "a.tsx", []⟩ : FRec)] = [] := by decide
  ⟨by decide, renamer_frame [⟨[], "a.tsx", []⟩] ⟨[], "a.tsx", []⟩ (by decide)
    (by decide) (fun f hf => absurd (hff ▸ hf) (List.not_mem_nil f))⟩

/-- C9 witness: swapping the two walked files leaves the output content
identical. -/
theorem generator_deterministic_witness :
    ([([], "a.tsx"), ([], "b.tsx")] : List (List String × String)).Perm
      [([], "b.tsx"), ([], "a.tsx")] ∧
    generatedContent [([], "a.tsx"), ([], "b.tsx")] =
      generatedContent [([], "b.tsx"), ([], "a.tsx")] :=
  ⟨by decide, generator_deterministic _ _ (by decide)⟩
